import Mathlib

/-!
Verification development for the expression-graph automatic-differentiation
core of gtsam (`gtsam_unstable/nonlinear/Expression-inl.h`).

The C++ template hierarchy is shallowly embedded over a single dynamic value
type `Val` (a runtime type tag plus a coordinate vector); dense dynamic-size
matrices of doubles become `List (List ℤ)` (exact integer arithmetic stands
in for floating point); `std::map<Key, Matrix>` becomes a sorted association
list; the C++ output-parameter calling convention
`f(args…, boost::optional<Matrix&>…)` becomes a value component taking one
request flag per Jacobian slot plus one Jacobian component per slot, and an
uninitialized local `Matrix H` that the wrapped function was not asked to
fill is modelled by a universally quantified matrix `U` threaded through
`augmented`.
-/

namespace gtsam

/-- Variable identifier, an opaque totally ordered key (`gtsam::Key`). -/
abbrev Key := Nat

/-- Dense dynamic-size matrix (`gtsam::Matrix`), row-major list of rows. -/
abbrev Matrix := List (List ℤ)

/-- Number of columns of a matrix, taken from its first row. -/
def Matrix.cols (A : Matrix) : Nat := (A.headD []).length

/-- Dot product of two coordinate lists, truncating to the shorter. -/
def dotProd (r c : List ℤ) : ℤ := (List.zipWith (· * ·) r c).sum

/-- Matrix product `A * B`. -/
def matMul (A B : Matrix) : Matrix :=
  A.map (fun row => (List.range B.cols).map (fun j => dotProd row (B.map (fun r => r.getD j 0))))

/-- Entrywise matrix sum `A + B` (Eigen `+=` on equally sized operands). -/
def matAdd (A B : Matrix) : Matrix :=
  List.zipWith (List.zipWith (· + ·)) A B

/-- Identity matrix `Eigen::MatrixXd::Identity(n, n)`. -/
def identity (n : Nat) : Matrix :=
  (List.range n).map (fun i => (List.range n).map (fun j => if i = j then 1 else 0))

/-- Manifold-valued quantity: a runtime type tag plus coordinates; `dim` is
the coordinate count. -/
structure Val where
  tag : Nat
  data : List ℤ
deriving DecidableEq

/-- Dimension of a value, `t.dim()` in the source. -/
def Val.dim (v : Val) : Nat := v.data.length

/-- `std::map<Key, Matrix>`: association list sorted strictly by key. -/
abbrev JacobianMap := List (Key × Matrix)

/-- The strict-sortedness invariant every `std::map` maintains. -/
def WFj (m : JacobianMap) : Prop := m.Pairwise (fun a b => a.1 < b.1)

instance : DecidablePred WFj := fun m =>
  List.instDecidablePairwise m

/-- `std::map::find` followed by dereference: first binding of `k`. -/
def jfind (k : Key) : JacobianMap → Option Matrix
  | [] => none
  | (k', M) :: rest => if k = k' then some M else jfind k rest

/-- One step of `Augmented::add`: if `k` is already present add `M` into the
existing entry, otherwise insert `(k, M)` at its sorted position. -/
def insertAdd : JacobianMap → Key → Matrix → JacobianMap
  | [], k, M => [(k, M)]
  | (k', M') :: rest, k, M =>
    if k = k' then (k', matAdd M' M) :: rest
    else if k < k' then (k, M) :: (k', M') :: rest
    else (k', M') :: insertAdd rest k M

/-- `Augmented::add(H, terms)` folded into an accumulator map: for every
`(key, block)` of `terms`, insert-or-add `H * block` under `key`. -/
def addTerms (jac : JacobianMap) (H : Matrix) (terms : JacobianMap) : JacobianMap :=
  terms.foldl (fun acc t => insertAdd acc t.1 (matMul H t.2)) jac

/-- `Augmented<T>`: a value together with its per-key Jacobian mapping. -/
structure Augmented where
  value : Val
  jacobians : JacobianMap
deriving DecidableEq

/-- Constructor `Augmented(t)`: a value that depends on nothing. -/
def Augmented.mkConst (t : Val) : Augmented := ⟨t, []⟩

/-- Constructor `Augmented(t, key)`: leaf value, Jacobian mapping
`\x7bkey : Identity(dim t, dim t)\x7d`. -/
def Augmented.mkLeaf (t : Val) (key : Key) : Augmented :=
  ⟨t, [(key, identity t.dim)]⟩

/-- Constructor `Augmented(t, H, jacobians)`: one accumulation pass. -/
def Augmented.mk1 (t : Val) (H : Matrix) (m : JacobianMap) : Augmented :=
  ⟨t, addTerms [] H m⟩

/-- Constructor `Augmented(t, H1, jacobians1, H2, jacobians2)`: two
accumulation passes, first pair first. -/
def Augmented.mk2 (t : Val) (H1 : Matrix) (m1 : JacobianMap)
    (H2 : Matrix) (m2 : JacobianMap) : Augmented :=
  ⟨t, addTerms (addTerms [] H1 m1) H2 m2⟩

/-- Constructor `Augmented(t, H1, jacobians1, H2, jacobians2, H3, jacobians3)`:
three accumulation passes, folded in the source order `add(H2, jacobians2);
add(H3, jacobians3); add(H1, jacobians1)`. -/
def Augmented.mk3 (t : Val) (H1 : Matrix) (m1 : JacobianMap)
    (H2 : Matrix) (m2 : JacobianMap) (H3 : Matrix) (m3 : JacobianMap) : Augmented :=
  ⟨t, addTerms (addTerms (addTerms [] H2 m2) H3 m3) H1 m1⟩

/-- `Augmented::constant()`: true iff the Jacobian mapping is empty. -/
def Augmented.constant (a : Augmented) : Bool := a.jacobians.isEmpty

/-- Evaluation failures the external `Values` container can signal. -/
inductive EvalError where
  | missingVariable
  | typeMismatch
deriving DecidableEq

/-- The external variable container: bindings from keys to tagged values. -/
abbrev Values := List (Key × Val)

/-- First binding of `k` in a `Values` container, if any. -/
def findVal (k : Key) : Values → Option Val
  | [] => none
  | (k', v) :: rest => if k = k' then some v else findVal k rest

/-- Modelled from the spec: the external `Values` container's typed lookup
`at<T>(Key)` (the container itself is outside the AD core), "failing
distinctly when the key is absent versus when the stored type does not
match `T`"; `tag` plays the role of the requested compile-time type `T`. -/
def valuesAt (tag : Nat) (key : Key) : Values → Except EvalError Val
  | [] => .error .missingVariable
  | (k, v) :: rest =>
    if key = k then
      if v.tag = tag then .ok v else .error .typeMismatch
    else valuesAt tag key rest

instance {ε α : Type} [DecidableEq ε] [DecidableEq α] : DecidableEq (Except ε α) :=
  fun a b =>
    match a, b with
    | .ok x, .ok y =>
      if h : x = y then isTrue (by rw [h]) else isFalse (fun hh => by cases hh; exact h rfl)
    | .error e, .error e' =>
      if h : e = e' then isTrue (by rw [h]) else isFalse (fun hh => by cases hh; exact h rfl)
    | .ok _, .error _ => isFalse (fun hh => by cases hh)
    | .error _, .ok _ => isFalse (fun hh => by cases hh)

/-- Wrapped unary function `boost::function<T(const A&, optional<Matrix&>)>`:
`fval` is the returned value given whether the Jacobian slot was requested,
`fjac` the Jacobian written into the slot when it was requested. -/
structure FuncU where
  fval : Val → Bool → Val
  fjac : Val → Matrix

/-- Wrapped binary function with two optional Jacobian output slots. -/
structure FuncB where
  fval : Val → Val → Bool → Bool → Val
  fjac1 : Val → Val → Matrix
  fjac2 : Val → Val → Matrix

/-- Wrapped ternary function with three optional Jacobian output slots. -/
structure FuncT where
  fval : Val → Val → Val → Bool → Bool → Bool → Val
  fjac1 : Val → Val → Val → Matrix
  fjac2 : Val → Val → Val → Matrix
  fjac3 : Val → Val → Val → Matrix

/-- The expression-node hierarchy: `ConstantExpression`, `LeafExpression`
(which also records the expected type tag `T`), `UnaryExpression`,
`BinaryExpression`, `TernaryExpression`. -/
inductive ExprNode where
  | constant (c : Val)
  | leaf (tag : Nat) (key : Key)
  | unary (f : FuncU) (a : ExprNode)
  | binary (f : FuncB) (a1 a2 : ExprNode)
  | ternary (f : FuncT) (a1 a2 a3 : ExprNode)

/-- `ExpressionNode::keys()`: Constant yields the empty set, Leaf its
singleton, Unary its child's keys, Binary `keys1.insert(keys2)`, Ternary
`keys2.insert(keys3); keys1.insert(keys2)`. -/
def ExprNode.keys : ExprNode → Finset Key
  | .constant _ => ∅
  | .leaf _ k => {k}
  | .unary _ a => a.keys
  | .binary _ a1 a2 => a1.keys ∪ a2.keys
  | .ternary _ a1 a2 a3 => a1.keys ∪ (a2.keys ∪ a3.keys)

/-- `ExpressionNode::value(values)`: plain evaluation, every optional
Jacobian slot passed `boost::none` (request flags all `false`). -/
def ExprNode.value : ExprNode → Values → Except EvalError Val
  | .constant c, _ => .ok c
  | .leaf tag k, vs => valuesAt tag k vs
  | .unary f a, vs =>
    match a.value vs with
    | .error e => .error e
    | .ok va => .ok (f.fval va false)
  | .binary f a1 a2, vs =>
    match a1.value vs with
    | .error e => .error e
    | .ok v1 =>
      match a2.value vs with
      | .error e => .error e
      | .ok v2 => .ok (f.fval v1 v2 false false)
  | .ternary f a1 a2 a3, vs =>
    match a1.value vs with
    | .error e => .error e
    | .ok v1 =>
      match a2.value vs with
      | .error e => .error e
      | .ok v2 =>
        match a3.value vs with
        | .error e => .error e
        | .ok v3 => .ok (f.fval v1 v2 v3 false false false)

/-- `ExpressionNode::augmented(values)`. The matrix `U` models the content
of a local `Matrix H` the wrapped function was not asked to fill (it stays
uninitialized in the source): a Jacobian slot is requested exactly when the
corresponding child is non-constant, otherwise `H = U`. The Ternary case
reproduces the source exactly: it computes all three child results and
local Jacobians but builds the result with the two-pair constructor,
dropping the `(H3, jacobians3)` pair. -/
def ExprNode.augmented : ExprNode → Matrix → Values → Except EvalError Augmented
  | .constant c, _, _ => .ok (Augmented.mkConst c)
  | .leaf tag k, _, vs =>
    match valuesAt tag k vs with
    | .error e => .error e
    | .ok t => .ok (Augmented.mkLeaf t k)
  | .unary f a, U, vs =>
    match a.augmented U vs with
    | .error e => .error e
    | .ok arg =>
      .ok (Augmented.mk1 (f.fval arg.value (! arg.constant))
        (if arg.constant then U else f.fjac arg.value) arg.jacobians)
  | .binary f a1 a2, U, vs =>
    match a1.augmented U vs with
    | .error e => .error e
    | .ok arg1 =>
      match a2.augmented U vs with
      | .error e => .error e
      | .ok arg2 =>
        .ok (Augmented.mk2
          (f.fval arg1.value arg2.value (! arg1.constant) (! arg2.constant))
          (if arg1.constant then U else f.fjac1 arg1.value arg2.value) arg1.jacobians
          (if arg2.constant then U else f.fjac2 arg1.value arg2.value) arg2.jacobians)
  | .ternary f a1 a2 a3, U, vs =>
    match a1.augmented U vs with
    | .error e => .error e
    | .ok arg1 =>
      match a2.augmented U vs with
      | .error e => .error e
      | .ok arg2 =>
        match a3.augmented U vs with
        | .error e => .error e
        | .ok arg3 =>
          .ok (Augmented.mk2
            (f.fval arg1.value arg2.value arg3.value
              (! arg1.constant) (! arg2.constant) (! arg3.constant))
            (if arg1.constant then U else f.fjac1 arg1.value arg2.value arg3.value)
            arg1.jacobians
            (if arg2.constant then U else f.fjac2 arg1.value arg2.value arg3.value)
            arg2.jacobians)

/-- The multiset of leaf keys syntactically reachable in a subtree; the
specification's reference meaning for `keys()`. -/
def ExprNode.leafKeyList : ExprNode → List Key
  | .constant _ => []
  | .leaf _ k => [k]
  | .unary _ a => a.leafKeyList
  | .binary _ a1 a2 => a1.leafKeyList ++ a2.leafKeyList
  | .ternary _ a1 a2 a3 => a1.leafKeyList ++ a2.leafKeyList ++ a3.leafKeyList

/-- The wrapped-function contract of the spec: the returned value does not
depend on which Jacobian output slots were requested, at every node of the
tree. -/
def GoodFuncs : ExprNode → Prop
  | .constant _ => True
  | .leaf _ _ => True
  | .unary f a => (∀ v b, f.fval v b = f.fval v false) ∧ GoodFuncs a
  | .binary f a1 a2 =>
    (∀ v1 v2 b1 b2, f.fval v1 v2 b1 b2 = f.fval v1 v2 false false) ∧
      GoodFuncs a1 ∧ GoodFuncs a2
  | .ternary f a1 a2 a3 =>
    (∀ v1 v2 v3 b1 b2 b3, f.fval v1 v2 v3 b1 b2 b3 = f.fval v1 v2 v3 false false false) ∧
      GoodFuncs a1 ∧ GoodFuncs a2 ∧ GoodFuncs a3

/-! Helper lemmas about matrix addition and the accumulation map. -/

lemma zipWith_assoc_of_assoc {α : Type} {f : α → α → α}
    (hf : ∀ a b c, f (f a b) c = f a (f b c)) :
    ∀ l1 l2 l3 : List α,
      List.zipWith f (List.zipWith f l1 l2) l3 = List.zipWith f l1 (List.zipWith f l2 l3)
  | [], _, _ => rfl
  | _ :: _, [], _ => rfl
  | _ :: _, _ :: _, [] => rfl
  | a :: t1, b :: t2, c :: t3 => by
    simp only [List.zipWith_cons_cons, hf]
    exact congrArg _ (zipWith_assoc_of_assoc hf t1 t2 t3)

lemma matAdd_comm (A B : Matrix) : matAdd A B = matAdd B A :=
  List.zipWith_comm_of_comm _
    (fun r s => List.zipWith_comm_of_comm _ (fun a b : ℤ => add_comm a b) r s) A B

lemma matAdd_assoc (A B C : Matrix) :
    matAdd (matAdd A B) C = matAdd A (matAdd B C) :=
  zipWith_assoc_of_assoc
    (zipWith_assoc_of_assoc (fun a b c : ℤ => add_assoc a b c)) A B C

/-- Combine an accumulated optional entry with an optional contribution:
`none` contributes nothing, two entries are summed. -/
def ocomb : Option Matrix → Option Matrix → Option Matrix
  | o, none => o
  | none, some b => some b
  | some old, some b => some (matAdd old b)

lemma jfind_eq_none {jac : JacobianMap} {k : Key} (h : ∀ p ∈ jac, ¬ k = p.1) :
    jfind k jac = none := by
  induction jac with
  | nil => rfl
  | cons q rest ih =>
    obtain ⟨k0, M0⟩ := q
    have hk : ¬ k = k0 := h (k0, M0) (List.mem_cons_self _ _)
    simp only [jfind, if_neg hk]
    exact ih (fun p hp => h p (List.mem_cons_of_mem _ hp))

lemma mem_keys_insertAdd : ∀ {jac : JacobianMap} {k : Key} {M : Matrix} {p : Key × Matrix},
    p ∈ insertAdd jac k M → p.1 = k ∨ p.1 ∈ jac.map Prod.fst := by
  intro jac
  induction jac with
  | nil =>
    intro k M p hp
    simp only [insertAdd, List.mem_singleton] at hp
    left; rw [hp]
  | cons q rest ih =>
    intro k M p hp
    obtain ⟨k0, M0⟩ := q
    simp only [List.map_cons, List.mem_cons]
    by_cases h0 : k = k0
    · subst h0
      simp only [insertAdd, if_pos rfl] at hp
      rcases List.mem_cons.mp hp with hp | hp
      · right; left; rw [hp]
      · right; right; exact List.mem_map_of_mem Prod.fst hp
    · by_cases hlt : k < k0
      · simp only [insertAdd, if_neg h0, if_pos hlt] at hp
        rcases List.mem_cons.mp hp with hp | hp
        · left; rw [hp]
        · rcases List.mem_cons.mp hp with hp | hp
          · right; left; rw [hp]
          · right; right; exact List.mem_map_of_mem Prod.fst hp
      · simp only [insertAdd, if_neg h0, if_neg hlt] at hp
        rcases List.mem_cons.mp hp with hp | hp
        · right; left; rw [hp]
        · rcases ih hp with h | h
          · left; exact h
          · right; right; exact h

lemma WFj_insertAdd : ∀ {jac : JacobianMap}, WFj jac →
    ∀ (k : Key) (M : Matrix), WFj (insertAdd jac k M) := by
  intro jac
  induction jac with
  | nil =>
    intro _ k M
    exact List.pairwise_singleton _ _
  | cons q rest ih =>
    intro hw k M
    obtain ⟨k0, M0⟩ := q
    have hall : ∀ p ∈ rest, k0 < p.1 := (List.pairwise_cons.mp hw).1
    have hrest : WFj rest := (List.pairwise_cons.mp hw).2
    by_cases h0 : k = k0
    · subst h0
      show WFj (insertAdd ((k, M0) :: rest) k M)
      simp only [insertAdd, if_pos rfl]
      exact List.Pairwise.cons hall hrest
    · by_cases hlt : k < k0
      · show WFj (insertAdd ((k0, M0) :: rest) k M)
        simp only [insertAdd, if_neg h0, if_pos hlt]
        refine List.Pairwise.cons ?_ (List.Pairwise.cons hall hrest)
        intro p hp
        rcases List.mem_cons.mp hp with hp | hp
        · rw [hp]; exact hlt
        · exact lt_trans hlt (hall p hp)
      · have hgt : k0 < k := lt_of_le_of_ne (not_lt.mp hlt) (Ne.symm h0)
        show WFj (insertAdd ((k0, M0) :: rest) k M)
        simp only [insertAdd, if_neg h0, if_neg hlt]
        refine List.Pairwise.cons ?_ (ih hrest k M)
        intro p hp
        rcases mem_keys_insertAdd hp with h | h
        · rw [h]; exact hgt
        · rw [List.mem_map] at h
          obtain ⟨q, hq, hq1⟩ := h
          rw [← hq1]
          exact hall q hq

lemma jfind_insertAdd : ∀ {jac : JacobianMap}, WFj jac → ∀ (k k' : Key) (M : Matrix),
    jfind k (insertAdd jac k' M) =
      if k = k' then ocomb (jfind k jac) (some M) else jfind k jac := by
  intro jac
  induction jac with
  | nil =>
    intro _ k k' M
    by_cases h : k = k' <;> simp [insertAdd, jfind, ocomb, h]
  | cons q rest ih =>
    intro hw k k' M
    obtain ⟨k0, M0⟩ := q
    have hall : ∀ p ∈ rest, k0 < p.1 := (List.pairwise_cons.mp hw).1
    have hrest : WFj rest := (List.pairwise_cons.mp hw).2
    by_cases h0 : k' = k0
    · subst h0
      simp only [insertAdd, if_pos rfl]
      by_cases h : k = k'
      · subst h
        simp [jfind, ocomb]
      · simp [jfind, h]
    · by_cases hlt : k' < k0
      · simp only [insertAdd, if_neg h0, if_pos hlt]
        by_cases h : k = k'
        · subst h
          have hk0 : ¬ k = k0 := fun hh => h0 hh
          have hnone : jfind k rest = none :=
            jfind_eq_none (fun p hp => Nat.ne_of_lt (lt_trans hlt (hall p hp)))
          simp [jfind, hk0, hnone, ocomb]
        · simp [jfind, h]
      · have hgt : k0 < k' := lt_of_le_of_ne (not_lt.mp hlt) (fun hh => h0 hh.symm)
        simp only [insertAdd, if_neg h0, if_neg hlt]
        by_cases hk0 : k = k0
        · subst hk0
          have hne : ¬ k = k' := Nat.ne_of_lt hgt
          simp [jfind, hne]
        · simp only [jfind, if_neg hk0]
          exact ih hrest k k' M

lemma WFj_addTerms : ∀ (terms : JacobianMap) (H : Matrix) (jac : JacobianMap),
    WFj jac → WFj (addTerms jac H terms) := by
  intro terms
  induction terms with
  | nil => intro H jac hw; exact hw
  | cons t rest ih =>
    intro H jac hw
    exact ih H _ (WFj_insertAdd hw t.1 (matMul H t.2))

lemma jfind_addTerms : ∀ {terms : JacobianMap},
    terms.Pairwise (fun a b => a.1 ≠ b.1) → ∀ {jac : JacobianMap}, WFj jac →
    ∀ (H : Matrix) (k : Key),
      jfind k (addTerms jac H terms) =
        ocomb (jfind k jac) ((jfind k terms).map (fun B => matMul H B)) := by
  intro terms
  induction terms with
  | nil =>
    intro _ jac _ H k
    cases hj : jfind k jac <;> simp [addTerms, jfind, ocomb, hj]
  | cons t rest ih =>
    intro hnd jac hw H k
    obtain ⟨k0, M0⟩ := t
    have hne : ∀ p ∈ rest, (k0 : Key) ≠ p.1 := (List.pairwise_cons.mp hnd).1
    have hndr : rest.Pairwise (fun a b => a.1 ≠ b.1) := (List.pairwise_cons.mp hnd).2
    have hstep : addTerms jac H ((k0, M0) :: rest) =
        addTerms (insertAdd jac k0 (matMul H M0)) H rest := rfl
    rw [hstep, ih hndr (WFj_insertAdd hw k0 (matMul H M0)) H k,
      jfind_insertAdd hw k k0 (matMul H M0)]
    by_cases h : k = k0
    · subst h
      have hnone : jfind k rest = none :=
        jfind_eq_none (fun p hp => fun hh => hne p hp hh)
      simp only [if_pos rfl, hnone, jfind, Option.map_some, Option.map_none]
      cases hj : jfind k jac <;> simp [ocomb]
    · simp only [if_neg h, jfind]

lemma keys_insertAdd_sub {jac : JacobianMap} {k : Key} {M : Matrix} {x : Key}
    (hx : x ∈ (insertAdd jac k M).map Prod.fst) : x = k ∨ x ∈ jac.map Prod.fst := by
  rw [List.mem_map] at hx
  obtain ⟨p, hp, hpx⟩ := hx
  rcases mem_keys_insertAdd hp with h | h
  · left; rw [← hpx, h]
  · right; rw [← hpx]; exact h

lemma mem_keys_addTerms : ∀ {terms : JacobianMap} {H : Matrix} {jac : JacobianMap}
    {p : Key × Matrix}, p ∈ addTerms jac H terms →
      p.1 ∈ jac.map Prod.fst ∨ p.1 ∈ terms.map Prod.fst := by
  intro terms
  induction terms with
  | nil =>
    intro H jac p hp
    left
    exact List.mem_map_of_mem Prod.fst hp
  | cons t rest ih =>
    intro H jac p hp
    rcases ih hp with h | h
    · rcases keys_insertAdd_sub h with h' | h'
      · right
        simp only [List.map_cons, List.mem_cons]
        left
        exact h'
      · left; exact h'
    · right
      simp only [List.map_cons, List.mem_cons]
      right
      exact h

lemma jmap_ext : ∀ {l1 l2 : JacobianMap}, WFj l1 → WFj l2 →
    (∀ k, jfind k l1 = jfind k l2) → l1 = l2 := by
  intro l1
  induction l1 with
  | nil =>
    intro l2 _ hw2 h
    cases l2 with
    | nil => rfl
    | cons q t2 =>
      exfalso
      have := h q.1
      simp [jfind] at this
  | cons q t1 ih =>
    intro l2 hw1 hw2 h
    obtain ⟨k1, M1⟩ := q
    have hall1 : ∀ p ∈ t1, k1 < p.1 := (List.pairwise_cons.mp hw1).1
    have hwt1 : WFj t1 := (List.pairwise_cons.mp hw1).2
    cases l2 with
    | nil =>
      exfalso
      have := h k1
      simp [jfind] at this
    | cons q2 t2 =>
      obtain ⟨k2, M2⟩ := q2
      have hall2 : ∀ p ∈ t2, k2 < p.1 := (List.pairwise_cons.mp hw2).1
      have hwt2 : WFj t2 := (List.pairwise_cons.mp hw2).2
      have hk : k1 = k2 := by
        by_contra hne
        rcases Nat.lt_or_ge k1 k2 with hlt | hge
        · have h1 := h k1
          have hr : jfind k1 t2 = none :=
            jfind_eq_none (fun p hp => Nat.ne_of_lt (lt_trans hlt (hall2 p hp)))
          simp [jfind, hne, hr] at h1
        · have hgt : k2 < k1 := lt_of_le_of_ne hge (Ne.symm hne)
          have h2 := h k2
          have hr : jfind k2 t1 = none :=
            jfind_eq_none (fun p hp => Nat.ne_of_lt (lt_trans hgt (hall1 p hp)))
          have hne2 : ¬ k2 = k1 := Ne.symm hne
          simp [jfind, hne2, hr] at h2
      subst hk
      have hM : M1 = M2 := by
        have h1 := h k1
        simp [jfind] at h1
        exact h1
      subst hM
      have htail : ∀ k, jfind k t1 = jfind k t2 := by
        intro k
        by_cases hkk : k = k1
        · subst hkk
          rw [jfind_eq_none (fun p hp => Nat.ne_of_lt (hall1 p hp)),
            jfind_eq_none (fun p hp => Nat.ne_of_lt (hall2 p hp))]
        · have := h k
          simpa [jfind, hkk] using this
      rw [ih hwt1 hwt2 htail]

lemma augmented_WF : ∀ (node : ExprNode) (U : Matrix) (vs : Values) (aug : Augmented),
    node.augmented U vs = .ok aug → WFj aug.jacobians := by
  intro node U vs aug h
  cases node with
  | constant c =>
    simp only [ExprNode.augmented, Except.ok.injEq] at h
    rw [← h]
    exact List.Pairwise.nil
  | leaf tag k =>
    cases hv : valuesAt tag k vs with
    | error e => rw [ExprNode.augmented, hv] at h; cases h
    | ok t =>
      rw [ExprNode.augmented, hv] at h
      cases h
      exact List.pairwise_singleton _ _
  | unary f a =>
    cases ha : a.augmented U vs with
    | error e => rw [ExprNode.augmented, ha] at h; cases h
    | ok arg =>
      rw [ExprNode.augmented, ha] at h
      cases h
      exact WFj_addTerms _ _ [] List.Pairwise.nil
  | binary f a1 a2 =>
    cases h1 : a1.augmented U vs with
    | error e => rw [ExprNode.augmented, h1] at h; cases h
    | ok arg1 =>
      cases h2 : a2.augmented U vs with
      | error e => rw [ExprNode.augmented, h1, h2] at h; cases h
      | ok arg2 =>
        rw [ExprNode.augmented, h1, h2] at h
        cases h
        exact WFj_addTerms _ _ _ (WFj_addTerms _ _ [] List.Pairwise.nil)
  | ternary f a1 a2 a3 =>
    cases h1 : a1.augmented U vs with
    | error e => rw [ExprNode.augmented, h1] at h; cases h
    | ok arg1 =>
      cases h2 : a2.augmented U vs with
      | error e => rw [ExprNode.augmented, h1, h2] at h; cases h
      | ok arg2 =>
        cases h3 : a3.augmented U vs with
        | error e => rw [ExprNode.augmented, h1, h2, h3] at h; cases h
        | ok arg3 =>
          rw [ExprNode.augmented, h1, h2, h3] at h
          cases h
          exact WFj_addTerms _ _ _ (WFj_addTerms _ _ [] List.Pairwise.nil)

lemma valuesAt_spec (tag : Nat) (k : Key) : ∀ vs : Values,
    valuesAt tag k vs =
      match findVal k vs with
      | none => .error .missingVariable
      | some v => if v.tag = tag then .ok v else .error .typeMismatch := by
  intro vs
  induction vs with
  | nil => rfl
  | cons p rest ih =>
    obtain ⟨k0, v0⟩ := p
    by_cases h : k = k0 <;> simp [valuesAt, findVal, h, ih]

/-- C6: `keys()` of every node variant equals exactly the set of Leaf keys
reachable in its subtree, with duplicates from repeated sub-expressions
collapsed by set semantics. -/
theorem keys_eq_reachable_leaf_keys :
    ∀ (node : ExprNode) (k : Key), k ∈ node.keys ↔ k ∈ node.leafKeyList := by
  intro node
  induction node with
  | constant c =>
    intro k
    simp [ExprNode.keys, ExprNode.leafKeyList]
  | leaf tag key =>
    intro k
    simp [ExprNode.keys, ExprNode.leafKeyList]
  | unary f a ih =>
    intro k
    simp only [ExprNode.keys, ExprNode.leafKeyList]
    exact ih k
  | binary f a1 a2 ih1 ih2 =>
    intro k
    simp [ExprNode.keys, ExprNode.leafKeyList, Finset.mem_union, ih1 k, ih2 k]
  | ternary f a1 a2 a3 ih1 ih2 ih3 =>
    intro k
    simp [ExprNode.keys, ExprNode.leafKeyList, Finset.mem_union, ih1 k, ih2 k, ih3 k,
      or_assoc]

/-- C7: a Leaf bound to key `k` whose typed lookup yields `t` produces the
Augmented value `(t, \x7bk : Identity(dim t, dim t)\x7d)`: value `t` and a
Jacobian mapping with exactly that one entry. -/
theorem leaf_augmented_identity (tag : Nat) (k : Key) (vs : Values) (U : Matrix)
    (t : Val) (h : valuesAt tag k vs = .ok t) :
    (ExprNode.leaf tag k).augmented U vs = .ok ⟨t, [(k, identity t.dim)]⟩ := by
  rw [ExprNode.augmented, h]
  rfl

/-- Witness for C7 at a concrete one-dimensional binding. -/
theorem leaf_augmented_identity_witness :
    (ExprNode.leaf 0 3).augmented [] [(3, ⟨0, [5]⟩)] =
      .ok ⟨⟨0, [5]⟩, [(3, identity 1)]⟩ :=
  leaf_augmented_identity 0 3 [(3, ⟨0, [5]⟩)] [] ⟨0, [5]⟩ (by decide)

/-- C5: a Leaf evaluated against a `Values` container missing its key, or
binding it at the wrong type, signals `missingVariable` respectively
`typeMismatch` from both `value` and `augmented`, returning no
partially-computed value; a correctly typed binding returns exactly the
stored value. -/
theorem leaf_lookup_error_behavior :
    (∀ (tag : Nat) (k : Key) (vs : Values) (U : Matrix), findVal k vs = none →
      (ExprNode.leaf tag k).value vs = .error .missingVariable ∧
      (ExprNode.leaf tag k).augmented U vs = .error .missingVariable) ∧
    (∀ (tag : Nat) (k : Key) (vs : Values) (U : Matrix) (v : Val),
      findVal k vs = some v → ¬ v.tag = tag →
      (ExprNode.leaf tag k).value vs = .error .typeMismatch ∧
      (ExprNode.leaf tag k).augmented U vs = .error .typeMismatch) ∧
    (∀ (tag : Nat) (k : Key) (vs : Values) (U : Matrix) (v : Val),
      findVal k vs = some v → v.tag = tag →
      (ExprNode.leaf tag k).value vs = .ok v ∧
      (ExprNode.leaf tag k).augmented U vs = .ok (Augmented.mkLeaf v k)) := by
  refine ⟨?_, ?_, ?_⟩
  · intro tag k vs U h
    have hv : valuesAt tag k vs = .error .missingVariable := by
      rw [valuesAt_spec, h]
    constructor
    · rw [ExprNode.value, hv]
    · rw [ExprNode.augmented, hv]
  · intro tag k vs U v h ht
    have hv : valuesAt tag k vs = .error .typeMismatch := by
      rw [valuesAt_spec, h]
      simp [ht]
    constructor
    · rw [ExprNode.value, hv]
    · rw [ExprNode.augmented, hv]
  · intro tag k vs U v h ht
    have hv : valuesAt tag k vs = .ok v := by
      rw [valuesAt_spec, h]
      simp [ht]
    constructor
    · rw [ExprNode.value, hv]
    · rw [ExprNode.augmented, hv]

/-- Witness for C5: a missing key, a wrongly tagged binding, and a correct
binding, each at concrete inputs. -/
theorem leaf_lookup_error_behavior_witness :
    (ExprNode.leaf 0 3).value [] = .error .missingVariable ∧
    (ExprNode.leaf 0 3).value [(3, ⟨1, [2]⟩)] = .error .typeMismatch ∧
    (ExprNode.leaf 0 3).value [(3, ⟨0, [2]⟩)] = .ok ⟨0, [2]⟩ :=
  ⟨(leaf_lookup_error_behavior.1 0 3 [] [] (by decide)).1,
    (leaf_lookup_error_behavior.2.1 0 3 [(3, ⟨1, [2]⟩)] [] ⟨1, [2]⟩
      (by decide) (by decide)).1,
    (leaf_lookup_error_behavior.2.2 0 3 [(3, ⟨0, [2]⟩)] [] ⟨0, [2]⟩
      (by decide) (by decide)).1⟩

/-- C4: a Constant node's augmented result has an empty mapping and reports
`constant() == true`; a Unary/Binary/Ternary node all of whose children
produce constant augmented results computes its value with every Jacobian
request flag `false` (no slot requested) and itself yields an empty mapping,
hence a constant result. -/
theorem constant_short_circuit :
    (∀ (c : Val) (U : Matrix) (vs : Values),
      (ExprNode.constant c).augmented U vs = .ok (Augmented.mkConst c) ∧
      (Augmented.mkConst c).jacobians = [] ∧ (Augmented.mkConst c).constant = true) ∧
    (∀ (f : FuncU) (a : ExprNode) (U : Matrix) (vs : Values) (v : Val),
      a.augmented U vs = .ok ⟨v, []⟩ →
      (ExprNode.unary f a).augmented U vs = .ok ⟨f.fval v false, []⟩) ∧
    (∀ (f : FuncB) (a1 a2 : ExprNode) (U : Matrix) (vs : Values) (v1 v2 : Val),
      a1.augmented U vs = .ok ⟨v1, []⟩ → a2.augmented U vs = .ok ⟨v2, []⟩ →
      (ExprNode.binary f a1 a2).augmented U vs = .ok ⟨f.fval v1 v2 false false, []⟩) ∧
    (∀ (f : FuncT) (a1 a2 a3 : ExprNode) (U : Matrix) (vs : Values) (v1 v2 v3 : Val),
      a1.augmented U vs = .ok ⟨v1, []⟩ → a2.augmented U vs = .ok ⟨v2, []⟩ →
      a3.augmented U vs = .ok ⟨v3, []⟩ →
      (ExprNode.ternary f a1 a2 a3).augmented U vs =
        .ok ⟨f.fval v1 v2 v3 false false false, []⟩) ∧
    (∀ (fv : Val → Bool → Val) (fj fj' : Val → Matrix) (a : ExprNode) (U : Matrix)
      (vs : Values) (v : Val), a.augmented U vs = .ok ⟨v, []⟩ →
      (ExprNode.unary ⟨fv, fj⟩ a).augmented U vs =
        (ExprNode.unary ⟨fv, fj'⟩ a).augmented U vs) ∧
    (∀ a : Augmented, a.jacobians = [] → a.constant = true) := by
  refine ⟨?_, ?_, ?_, ?_, ?_, ?_⟩
  · intro c U vs
    exact ⟨rfl, rfl, rfl⟩
  · intro f a U vs v h
    rw [ExprNode.augmented, h]
    rfl
  · intro f a1 a2 U vs v1 v2 h1 h2
    rw [ExprNode.augmented, h1, h2]
    rfl
  · intro f a1 a2 a3 U vs v1 v2 v3 h1 h2 h3
    rw [ExprNode.augmented, h1, h2, h3]
    rfl
  · intro fv fj fj' a U vs v h
    rw [ExprNode.augmented, h, ExprNode.augmented, h]
    rfl
  · intro a h
    simp [Augmented.constant, h]

/-- Witness for C4: a unary node over a constant child, evaluated concretely. -/
theorem constant_short_circuit_witness :
    (ExprNode.unary ⟨fun v _ => v, fun _ => [[1]]⟩ (.constant ⟨0, [2]⟩)).augmented
      [[7]] [] = .ok ⟨⟨0, [2]⟩, []⟩ ∧
    (ExprNode.unary ⟨fun v _ => v, fun _ => [[1]]⟩ (.constant ⟨0, [2]⟩)).augmented
      [[7]] [] =
      (ExprNode.unary ⟨fun v _ => v, fun _ => [[6]]⟩ (.constant ⟨0, [2]⟩)).augmented
      [[7]] [] :=
  ⟨constant_short_circuit.2.1 ⟨fun v _ => v, fun _ => [[1]]⟩ (.constant ⟨0, [2]⟩)
    [[7]] [] ⟨0, [2]⟩ rfl,
    constant_short_circuit.2.2.2.2.1 (fun v _ => v) (fun _ => [[1]]) (fun _ => [[6]])
      (.constant ⟨0, [2]⟩) [[7]] [] ⟨0, [2]⟩ rfl⟩

/-- C9: a local Jacobian slot left unfilled because the corresponding child
is constant is never read: folding a pair whose mapping is empty contributes
nothing regardless of the matrix, and the whole `augmented` computation is
independent of the content `U` standing for every uninitialized local
Jacobian. -/
theorem uninitialized_jacobian_never_used :
    (∀ (jac : JacobianMap) (H : Matrix), addTerms jac H [] = jac) ∧
    (∀ (node : ExprNode) (vs : Values) (U U' : Matrix),
      node.augmented U vs = node.augmented U' vs) := by
  constructor
  · intro jac H
    rfl
  · intro node
    induction node with
    | constant c => intro vs U U'; rfl
    | leaf tag k => intro vs U U'; rfl
    | unary f a ih =>
      intro vs U U'
      rw [ExprNode.augmented, ExprNode.augmented, ih vs U U']
      cases ha : a.augmented U' vs with
      | error e => rfl
      | ok arg =>
        cases hj : arg.jacobians with
        | nil => simp [Augmented.constant, Augmented.mk1, hj, addTerms]
        | cons p rest => simp [Augmented.constant, hj]
    | binary f a1 a2 ih1 ih2 =>
      intro vs U U'
      rw [ExprNode.augmented, ExprNode.augmented, ih1 vs U U', ih2 vs U U']
      cases h1 : a1.augmented U' vs with
      | error e => rfl
      | ok arg1 =>
        cases h2 : a2.augmented U' vs with
        | error e => rfl
        | ok arg2 =>
          cases hj1 : arg1.jacobians with
          | nil =>
            cases hj2 : arg2.jacobians with
            | nil => simp [Augmented.constant, Augmented.mk2, hj1, hj2, addTerms]
            | cons p rest => simp [Augmented.constant, Augmented.mk2, hj1, hj2, addTerms]
          | cons p rest =>
            cases hj2 : arg2.jacobians with
            | nil => simp [Augmented.constant, Augmented.mk2, hj1, hj2, addTerms]
            | cons q rest2 => simp [Augmented.constant, hj1, hj2]
    | ternary f a1 a2 a3 ih1 ih2 ih3 =>
      intro vs U U'
      rw [ExprNode.augmented, ExprNode.augmented, ih1 vs U U', ih2 vs U U', ih3 vs U U']
      cases h1 : a1.augmented U' vs with
      | error e => rfl
      | ok arg1 =>
        cases h2 : a2.augmented U' vs with
        | error e => rfl
        | ok arg2 =>
          cases h3 : a3.augmented U' vs with
          | error e => rfl
          | ok arg3 =>
            cases hj1 : arg1.jacobians with
            | nil =>
              cases hj2 : arg2.jacobians with
              | nil => simp [Augmented.constant, Augmented.mk2, hj1, hj2, addTerms]
              | cons p rest => simp [Augmented.constant, Augmented.mk2, hj1, hj2, addTerms]
            | cons p rest =>
              cases hj2 : arg2.jacobians with
              | nil => simp [Augmented.constant, Augmented.mk2, hj1, hj2, addTerms]
              | cons q rest2 => simp [Augmented.constant, hj1, hj2]

/-- C1: the Ternary `augmented` path drops the third child's contribution.
At the concrete input below the third child is the only non-constant one:
its own mapping binds key `3` to the identity, the local Jacobian `H3`
returned by the wrapped function is `[[2]]`, so the chain rule requires the
entry `H3 * Identity = [[2]]` at key `3` — yet the code returns an empty
Jacobian mapping, because the source builds the result with the two-pair
constructor and never folds `(H3, jacobians3)`. -/
theorem ternary_third_child_dropped :
    (ExprNode.ternary
        ⟨fun _ _ _ _ _ _ => ⟨0, [7]⟩, fun _ _ _ => [[9]], fun _ _ _ => [[9]],
          fun _ _ _ => [[2]]⟩
        (.constant ⟨0, [1]⟩) (.constant ⟨0, [2]⟩) (.leaf 0 3)).augmented
      [[0]] [(3, ⟨0, [5]⟩)] = .ok ⟨⟨0, [7]⟩, []⟩ ∧
    (ExprNode.leaf 0 3).augmented [[0]] [(3, ⟨0, [5]⟩)] =
      .ok ⟨⟨0, [5]⟩, [(3, [[1]])]⟩ ∧
    matMul [[2]] [[1]] = [[2]] := by
  refine ⟨by decide, by decide, by decide⟩

lemma ocomb_none (c : Option Matrix) : ocomb none c = c := by
  cases c <;> rfl

lemma ocomb_rotate (c1 c2 c3 : Option Matrix) :
    ocomb (ocomb c2 c3) c1 = ocomb (ocomb c1 c2) c3 := by
  cases c1 with
  | none => cases c2 <;> cases c3 <;> rfl
  | some a1 =>
    cases c2 with
    | none =>
      cases c3 with
      | none => rfl
      | some a3 =>
        show some (matAdd a3 a1) = some (matAdd a1 a3)
        rw [matAdd_comm]
    | some a2 =>
      cases c3 with
      | none =>
        show some (matAdd a2 a1) = some (matAdd a1 a2)
        rw [matAdd_comm]
      | some a3 =>
        show some (matAdd (matAdd a2 a3) a1) = some (matAdd (matAdd a1 a2) a3)
        rw [matAdd_comm, ← matAdd_assoc]

/-- C2: for every node variant and every binding under which `augmented`
succeeds, and assuming every wrapped function in the tree returns the same
value whether or not its Jacobian output slots are requested,
`node.value(values)` equals `node.augmented(values).value()` exactly. -/
theorem value_eq_augmented_value :
    ∀ (node : ExprNode), GoodFuncs node → ∀ (U : Matrix) (vs : Values) (aug : Augmented),
      node.augmented U vs = .ok aug → node.value vs = .ok aug.value := by
  intro node
  induction node with
  | constant c =>
    intro _ U vs aug h
    simp only [ExprNode.augmented, Except.ok.injEq] at h
    rw [← h]
    rfl
  | leaf tag k =>
    intro _ U vs aug h
    cases hv : valuesAt tag k vs with
    | error e => rw [ExprNode.augmented, hv] at h; cases h
    | ok t =>
      rw [ExprNode.augmented, hv] at h
      cases h
      rw [ExprNode.value, hv]
      rfl
  | unary f a ih =>
    intro hg U vs aug h
    obtain ⟨hf, hga⟩ := hg
    cases ha : a.augmented U vs with
    | error e => rw [ExprNode.augmented, ha] at h; cases h
    | ok arg =>
      rw [ExprNode.augmented, ha] at h
      cases h
      rw [ExprNode.value, ih hga U vs arg ha]
      show Except.ok (f.fval arg.value false) = .ok (f.fval arg.value (! arg.constant))
      rw [hf arg.value (! arg.constant)]
  | binary f a1 a2 ih1 ih2 =>
    intro hg U vs aug h
    obtain ⟨hf, hg1, hg2⟩ := hg
    cases h1 : a1.augmented U vs with
    | error e => rw [ExprNode.augmented, h1] at h; cases h
    | ok arg1 =>
      cases h2 : a2.augmented U vs with
      | error e => rw [ExprNode.augmented, h1, h2] at h; cases h
      | ok arg2 =>
        rw [ExprNode.augmented, h1, h2] at h
        cases h
        rw [ExprNode.value, ih1 hg1 U vs arg1 h1, ih2 hg2 U vs arg2 h2]
        show Except.ok (f.fval arg1.value arg2.value false false) =
          .ok (f.fval arg1.value arg2.value (! arg1.constant) (! arg2.constant))
        rw [hf arg1.value arg2.value (! arg1.constant) (! arg2.constant)]
  | ternary f a1 a2 a3 ih1 ih2 ih3 =>
    intro hg U vs aug h
    obtain ⟨hf, hg1, hg2, hg3⟩ := hg
    cases h1 : a1.augmented U vs with
    | error e => rw [ExprNode.augmented, h1] at h; cases h
    | ok arg1 =>
      cases h2 : a2.augmented U vs with
      | error e => rw [ExprNode.augmented, h1, h2] at h; cases h
      | ok arg2 =>
        cases h3 : a3.augmented U vs with
        | error e => rw [ExprNode.augmented, h1, h2, h3] at h; cases h
        | ok arg3 =>
          rw [ExprNode.augmented, h1, h2, h3] at h
          cases h
          rw [ExprNode.value, ih1 hg1 U vs arg1 h1, ih2 hg2 U vs arg2 h2,
            ih3 hg3 U vs arg3 h3]
          show Except.ok (f.fval arg1.value arg2.value arg3.value false false false) =
            .ok (f.fval arg1.value arg2.value arg3.value
              (! arg1.constant) (! arg2.constant) (! arg3.constant))
          rw [hf arg1.value arg2.value arg3.value
            (! arg1.constant) (! arg2.constant) (! arg3.constant)]

/-- Witness for C2: a unary node over a leaf, evaluated concretely. -/
theorem value_eq_augmented_value_witness :
    (ExprNode.unary ⟨fun v _ => v, fun _ => [[1]]⟩ (.leaf 0 1)).value [(1, ⟨0, [4]⟩)] =
      .ok (⟨⟨0, [4]⟩, [(1, [[1]])]⟩ : Augmented).value :=
  value_eq_augmented_value (ExprNode.unary ⟨fun v _ => v, fun _ => [[1]]⟩ (.leaf 0 1))
    ⟨fun _ _ => rfl, trivial⟩ [] [(1, ⟨0, [4]⟩)] ⟨⟨0, [4]⟩, [(1, [[1]])]⟩ (by decide)

/-- C3: when both children of a Binary node carry a Jacobian block for the
same key `k`, the node's augmented mapping at `k` is the sum
`H1 * block1 + H2 * block2` — the accumulation adds into the existing entry
rather than overwriting it. -/
theorem binary_shared_key_accumulates (f : FuncB) (a1 a2 : ExprNode) (U : Matrix)
    (vs : Values) (arg1 arg2 aug : Augmented) (k : Key) (b1 b2 : Matrix)
    (h1 : a1.augmented U vs = .ok arg1) (h2 : a2.augmented U vs = .ok arg2)
    (hk1 : jfind k arg1.jacobians = some b1) (hk2 : jfind k arg2.jacobians = some b2)
    (haug : (ExprNode.binary f a1 a2).augmented U vs = .ok aug) :
    jfind k aug.jacobians =
      some (matAdd (matMul (f.fjac1 arg1.value arg2.value) b1)
        (matMul (f.fjac2 arg1.value arg2.value) b2)) := by
  rw [ExprNode.augmented, h1, h2] at haug
  cases haug
  have hw1 : WFj arg1.jacobians := augmented_WF a1 U vs arg1 h1
  have hw2 : WFj arg2.jacobians := augmented_WF a2 U vs arg2 h2
  have hnd1 : arg1.jacobians.Pairwise (fun a b => a.1 ≠ b.1) :=
    hw1.imp (fun h => Nat.ne_of_lt h)
  have hnd2 : arg2.jacobians.Pairwise (fun a b => a.1 ≠ b.1) :=
    hw2.imp (fun h => Nat.ne_of_lt h)
  have hc1 : arg1.constant = false := by
    cases hj : arg1.jacobians with
    | nil => rw [hj] at hk1; cases hk1
    | cons p rest => simp [Augmented.constant, hj]
  have hc2 : arg2.constant = false := by
    cases hj : arg2.jacobians with
    | nil => rw [hj] at hk2; cases hk2
    | cons p rest => simp [Augmented.constant, hj]
  simp only [Augmented.mk2, hc1, hc2, Bool.false_eq_true, if_false]
  rw [jfind_addTerms hnd2 (WFj_addTerms _ _ [] List.Pairwise.nil) _ k,
    jfind_addTerms hnd1 List.Pairwise.nil _ k, hk1, hk2]
  rfl

/-- Witness for C3: both children are the same leaf, so both mappings share
key `5`; the local Jacobians `[[2]]` and `[[3]]` fold into `[[2]] + [[3]]`. -/
theorem binary_shared_key_accumulates_witness :
    jfind 5 (⟨⟨0, [1]⟩, [(5, [[5]])]⟩ : Augmented).jacobians =
      some (matAdd (matMul [[2]] [[1]]) (matMul [[3]] [[1]])) :=
  binary_shared_key_accumulates
    ⟨fun v1 _ _ _ => v1, fun _ _ => [[2]], fun _ _ => [[3]]⟩
    (.leaf 0 5) (.leaf 0 5) [] [(5, ⟨0, [1]⟩)]
    ⟨⟨0, [1]⟩, [(5, [[1]])]⟩ ⟨⟨0, [1]⟩, [(5, [[1]])]⟩ ⟨⟨0, [1]⟩, [(5, [[5]])]⟩
    5 [[1]] [[1]] (by decide) (by decide) (by decide) (by decide) (by decide)

/-- C8: the three-pair constructor, although it folds the pairs in the order
`(H2, m2), (H3, m3), (H1, m1)`, produces the same mapping as folding in the
order `(H1, m1), (H2, m2), (H3, m3)`: per-key accumulation is a commutative
sum. -/
theorem mk3_fold_order_independent (t : Val) (H1 H2 H3 : Matrix)
    (m1 m2 m3 : JacobianMap) (h1 : WFj m1) (h2 : WFj m2) (h3 : WFj m3) :
    (Augmented.mk3 t H1 m1 H2 m2 H3 m3).jacobians =
      addTerms (addTerms (addTerms [] H1 m1) H2 m2) H3 m3 := by
  have hnd1 : m1.Pairwise (fun a b => a.1 ≠ b.1) := h1.imp (fun h => Nat.ne_of_lt h)
  have hnd2 : m2.Pairwise (fun a b => a.1 ≠ b.1) := h2.imp (fun h => Nat.ne_of_lt h)
  have hnd3 : m3.Pairwise (fun a b => a.1 ≠ b.1) := h3.imp (fun h => Nat.ne_of_lt h)
  have hw0 : WFj [] := List.Pairwise.nil
  apply jmap_ext
    (WFj_addTerms _ _ _ (WFj_addTerms _ _ _ (WFj_addTerms _ _ [] hw0)))
    (WFj_addTerms _ _ _ (WFj_addTerms _ _ _ (WFj_addTerms _ _ [] hw0)))
  intro k
  show jfind k (addTerms (addTerms (addTerms [] H2 m2) H3 m3) H1 m1) =
    jfind k (addTerms (addTerms (addTerms [] H1 m1) H2 m2) H3 m3)
  rw [jfind_addTerms hnd1 (WFj_addTerms _ _ _ (WFj_addTerms _ _ [] hw0)) H1 k,
    jfind_addTerms hnd3 (WFj_addTerms _ _ [] hw0) H3 k,
    jfind_addTerms hnd2 hw0 H2 k,
    jfind_addTerms hnd3 (WFj_addTerms _ _ _ (WFj_addTerms _ _ [] hw0)) H3 k,
    jfind_addTerms hnd2 (WFj_addTerms _ _ [] hw0) H2 k,
    jfind_addTerms hnd1 hw0 H1 k]
  show ocomb (ocomb (ocomb (jfind k []) _) _) _ = ocomb (ocomb (ocomb (jfind k []) _) _) _
  rw [show jfind k ([] : JacobianMap) = none from rfl, ocomb_none, ocomb_none]
  exact ocomb_rotate _ _ _

/-- Witness for C8: three concrete overlapping sorted mappings. -/
theorem mk3_fold_order_independent_witness :
    (Augmented.mk3 ⟨0, [1]⟩ [[1]] [(1, [[1]])] [[1]] [(1, [[2]]), (2, [[4]])]
        [[1]] [(2, [[8]])]).jacobians =
      addTerms (addTerms (addTerms [] [[1]] [(1, [[1]])]) [[1]]
        [(1, [[2]]), (2, [[4]])]) [[1]] [(2, [[8]])] :=
  mk3_fold_order_independent ⟨0, [1]⟩ [[1]] [[1]] [[1]] [(1, [[1]])]
    [(1, [[2]]), (2, [[4]])] [(2, [[8]])] (by decide) (by decide) (by decide)

/-- C10: every key in the Jacobian mapping of a successful `augmented`
evaluation belongs to the node's `keys()` set. -/
theorem jacobian_keys_subset_keys :
    ∀ (node : ExprNode) (U : Matrix) (vs : Values) (aug : Augmented),
      node.augmented U vs = .ok aug →
      ∀ k, k ∈ aug.jacobians.map Prod.fst → k ∈ node.keys := by
  intro node
  induction node with
  | constant c =>
    intro U vs aug h k hk
    simp only [ExprNode.augmented, Except.ok.injEq] at h
    rw [← h] at hk
    simp [Augmented.mkConst] at hk
  | leaf tag key =>
    intro U vs aug h k hk
    cases hv : valuesAt tag key vs with
    | error e => rw [ExprNode.augmented, hv] at h; cases h
    | ok t =>
      rw [ExprNode.augmented, hv] at h
      cases h
      simp only [Augmented.mkLeaf, List.map_cons, List.map_nil,
        List.mem_singleton] at hk
      rw [ExprNode.keys, hk]
      exact Finset.mem_singleton_self key
  | unary f a ih =>
    intro U vs aug h k hk
    cases ha : a.augmented U vs with
    | error e => rw [ExprNode.augmented, ha] at h; cases h
    | ok arg =>
      rw [ExprNode.augmented, ha] at h
      cases h
      rw [List.mem_map] at hk
      obtain ⟨p, hp, hpk⟩ := hk
      rcases mem_keys_addTerms hp with h' | h'
      · simp at h'
      · rw [ExprNode.keys]
        exact ih U vs arg ha k (by rw [← hpk]; exact h')
  | binary f a1 a2 ih1 ih2 =>
    intro U vs aug h k hk
    cases ha1 : a1.augmented U vs with
    | error e => rw [ExprNode.augmented, ha1] at h; cases h
    | ok arg1 =>
      cases ha2 : a2.augmented U vs with
      | error e => rw [ExprNode.augmented, ha1, ha2] at h; cases h
      | ok arg2 =>
        rw [ExprNode.augmented, ha1, ha2] at h
        cases h
        rw [List.mem_map] at hk
        obtain ⟨p, hp, hpk⟩ := hk
        rw [ExprNode.keys, Finset.mem_union]
        rcases mem_keys_addTerms hp with h' | h'
        · rcases mem_keys_addTerms (List.mem_map.mp h').choose_spec.1 with h2 | h2
          · simp at h2
          · left
            have hp1 := (List.mem_map.mp h').choose_spec.2
            exact ih1 U vs arg1 ha1 k (by rw [← hpk, ← hp1]; exact h2)
        · right
          exact ih2 U vs arg2 ha2 k (by rw [← hpk]; exact h')
  | ternary f a1 a2 a3 ih1 ih2 ih3 =>
    intro U vs aug h k hk
    cases ha1 : a1.augmented U vs with
    | error e => rw [ExprNode.augmented, ha1] at h; cases h
    | ok arg1 =>
      cases ha2 : a2.augmented U vs with
      | error e => rw [ExprNode.augmented, ha1, ha2] at h; cases h
      | ok arg2 =>
        cases ha3 : a3.augmented U vs with
        | error e => rw [ExprNode.augmented, ha1, ha2, ha3] at h; cases h
        | ok arg3 =>
          rw [ExprNode.augmented, ha1, ha2, ha3] at h
          cases h
          rw [List.mem_map] at hk
          obtain ⟨p, hp, hpk⟩ := hk
          rw [ExprNode.keys, Finset.mem_union]
          rcases mem_keys_addTerms hp with h' | h'
          · rcases mem_keys_addTerms (List.mem_map.mp h').choose_spec.1 with h2 | h2
            · simp at h2
            · left
              have hp1 := (List.mem_map.mp h').choose_spec.2
              exact ih1 U vs arg1 ha1 k (by rw [← hpk, ← hp1]; exact h2)
          · right
            rw [Finset.mem_union]
            left
            exact ih2 U vs arg2 ha2 k (by rw [← hpk]; exact h')

/-- Witness for C10 at a concrete leaf evaluation. -/
theorem jacobian_keys_subset_keys_witness :
    (3 : Key) ∈ (ExprNode.leaf 0 3).keys :=
  jacobian_keys_subset_keys (ExprNode.leaf 0 3) [] [(3, ⟨0, [5]⟩)]
    ⟨⟨0, [5]⟩, [(3, [[1]])]⟩ (by decide) 3 (by decide)

end gtsam
